import Mathlib

/-!
Verification of the segment normalization and identity-assignment pipeline of
`cldfbench_eurasianinventories.py` (cldf-datasets/eurasianinventories).

Strings are shallowly embedded as `List Char` (Lean `Char` is a Unicode scalar
value, matching Python's per-codepoint view of `str`).  Third-party library
functions (`clldutils.misc.slug`, `unidecode.unidecode`,
`unicodedata.normalize("NFC", ·)`, the CLTS BIPA lookup, the language-metadata
catalog) are collaborators outside this repository; they appear as explicit
function parameters, with their documented contracts taken as hypotheses
where a theorem needs them.  Python runtime errors (`IndexError` from
unguarded indexing, `KeyError` from a missing dict key) are modelled with
`Option`: `none` is an aborted run.
-/

namespace EurasianInv

/-- Uppercase hexadecimal digit character for a value below 16, as produced
by Python's `"{0:X}"` format. -/
def upHexDigit (n : Nat) : Char :=
  if n < 10 then Char.ofNat (48 + n) else Char.ofNat (55 + n)

/-- Fuel-driven worker for `hexChars`: structural recursion on the fuel so
that concrete identifiers evaluate inside the kernel. -/
def hexCharsAux : Nat → Nat → List Char
  | 0, _ => []
  | _ + 1, 0 => []
  | f + 1, n + 1 => hexCharsAux f ((n + 1) / 16) ++ [upHexDigit ((n + 1) % 16)]

/-- Hexadecimal digits of a natural number, most significant first, no
leading zeros (the empty list for 0; zero-padding is applied separately). -/
def hexChars (n : Nat) : List Char :=
  hexCharsAux n n

theorem hexCharsAux_fuel (n : Nat) : ∀ f1 f2, n ≤ f1 → n ≤ f2 →
    hexCharsAux f1 n = hexCharsAux f2 n := by
  induction n using Nat.strong_induction_on with
  | _ n ih =>
    intro f1 f2 h1 h2
    match n, f1, f2 with
    | 0, 0, 0 => rfl
    | 0, 0, _ + 1 => rfl
    | 0, _ + 1, 0 => rfl
    | 0, _ + 1, _ + 1 => rfl
    | m + 1, g1 + 1, g2 + 1 =>
      have hdiv : (m + 1) / 16 < m + 1 := Nat.div_lt_self (Nat.succ_pos m) (by norm_num)
      have hg1 : (m + 1) / 16 ≤ g1 := Nat.le_of_lt_succ (Nat.lt_of_lt_of_le hdiv h1)
      have hg2 : (m + 1) / 16 ≤ g2 := Nat.le_of_lt_succ (Nat.lt_of_lt_of_le hdiv h2)
      rw [hexCharsAux, hexCharsAux, ih _ hdiv g1 g2 hg1 hg2]

theorem hexChars_zero : hexChars 0 = [] := rfl

theorem hexChars_succ (m : Nat) :
    hexChars (m + 1) = hexChars ((m + 1) / 16) ++ [upHexDigit ((m + 1) % 16)] := by
  have hdiv : (m + 1) / 16 < m + 1 := Nat.div_lt_self (Nat.succ_pos m) (by norm_num)
  unfold hexChars
  rw [hexCharsAux]
  rw [hexCharsAux_fuel ((m + 1) / 16) m ((m + 1) / 16) (Nat.le_of_lt_succ hdiv) (Nat.le_refl _)]

/-- Zero padding to minimum width 4, as in `"{0:0{1}X}".format(cp, 4)`. -/
def pad4 (l : List Char) : List Char :=
  List.replicate (4 - l.length) '0' ++ l

/-- Per-character block `"u" + zero-padded uppercase hex of ord(char)` from
`compute_id` (line 24 of the source). -/
def encodeChar (c : Char) : List Char :=
  'u' :: pad4 (hexChars c.toNat)

/-- The `unicode_repr` local of `compute_id`: concatenation of the
per-codepoint blocks over the whole input. -/
def unicodeRepr (text : List Char) : List Char :=
  (text.map encodeChar).flatten

/-- `compute_id(text)` from the source, lines 19–28:
`"%s_%s" % (slug(unidecode(text)), unicode_repr)`.  The label
`slug(unidecode(text))` is third-party library code and enters as the
parameter `lab`; `clldutils.misc.slug` guarantees its result consists of
ASCII lowercase letters and digits only (all punctuation, in particular the
underscore, is removed, and whitespace is removed under its defaults), which
theorems assume as an explicit hypothesis on `lab` where needed. -/
def compute_id (lab : List Char → List Char) (text : List Char) : List Char :=
  lab text ++ '_' :: unicodeRepr text

/-- Numeric value of an uppercase hexadecimal digit character (inverse of
`upHexDigit` on digits). -/
def hexVal (c : Char) : Nat :=
  if c.toNat < 65 then c.toNat - 48 else c.toNat - 55

/-- Parse a big-endian list of hexadecimal digit characters. -/
def parseHex (l : List Char) : Nat :=
  l.foldl (fun a c => 16 * a + hexVal c) 0

/-- Split the codepoint part of an identifier back into per-character digit
blocks: every block was emitted as a literal `'u'` followed by hex digits,
and no hex digit is `'u'`. -/
def splitBlocks : List Char → List (List Char)
  | [] => []
  | _ :: rest =>
      rest.takeWhile (fun c => c != 'u') ::
        splitBlocks (rest.dropWhile (fun c => c != 'u'))
termination_by l => l.length
decreasing_by
  simp only [List.length_cons]
  exact Nat.lt_succ_of_le (List.Sublist.length_le (List.dropWhile_sublist _))

theorem splitBlocks_nil : splitBlocks [] = [] := by
  rw [splitBlocks.eq_def]

theorem splitBlocks_cons (a : Char) (rest : List Char) :
    splitBlocks (a :: rest)
      = rest.takeWhile (fun c => c != 'u') ::
          splitBlocks (rest.dropWhile (fun c => c != 'u')) := by
  rw [splitBlocks.eq_def]

/-- Full decoder for `compute_id` output: drop everything up to and including
the first underscore, split the remaining codepoint part into blocks, parse
each block as hex and rebuild the character. -/
def decodeId (l : List Char) : List Char :=
  (splitBlocks ((l.dropWhile (fun c => c != '_')).drop 1)).map
    (fun b => Char.ofNat (parseHex b))

theorem hexVal_upHexDigit : ∀ n, n < 16 → hexVal (upHexDigit n) = n := by
  decide

theorem upHexDigit_ne_u : ∀ n, n < 16 → upHexDigit n ≠ 'u' := by
  decide

theorem upHexDigit_ne_underscore : ∀ n, n < 16 → upHexDigit n ≠ '_' := by
  decide

theorem mem_hexChars (n : Nat) : ∀ c ∈ hexChars n, ∃ d, d < 16 ∧ c = upHexDigit d := by
  induction n using Nat.strong_induction_on with
  | _ n ih =>
    match n with
    | 0 => simp [hexChars_zero]
    | m + 1 =>
      rw [hexChars_succ]
      intro c hc
      rcases List.mem_append.1 hc with h | h
      · exact ih ((m + 1) / 16) (Nat.div_lt_self (Nat.succ_pos m) (by norm_num)) c h
      · rcases List.mem_singleton.1 h with rfl
        exact ⟨(m + 1) % 16, Nat.mod_lt _ (by norm_num), rfl⟩

theorem mem_pad4_hexChars (n : Nat) :
    ∀ c ∈ pad4 (hexChars n), c ≠ 'u' ∧ c ≠ '_' := by
  intro c hc
  rcases List.mem_append.1 hc with h | h
  · rcases List.eq_of_mem_replicate h with rfl
    constructor <;> decide
  · rcases mem_hexChars n c h with ⟨d, hd, rfl⟩
    exact ⟨upHexDigit_ne_u d hd, upHexDigit_ne_underscore d hd⟩

theorem parseHex_append_zero (k : Nat) (l : List Char) :
    parseHex (List.replicate k '0' ++ l) = parseHex l := by
  induction k with
  | zero => simp
  | succ k ih =>
    have h0 : hexVal '0' = 0 := by decide
    simp only [parseHex, List.replicate_succ, List.cons_append, List.foldl_cons] at *
    simpa [h0] using ih

theorem parseHex_hexChars (n : Nat) : parseHex (hexChars n) = n := by
  induction n using Nat.strong_induction_on with
  | _ n ih =>
    match n with
    | 0 => simp [hexChars_zero, parseHex]
    | m + 1 =>
      rw [hexChars_succ]
      have hlt : (m + 1) / 16 < m + 1 := Nat.div_lt_self (Nat.succ_pos m) (by norm_num)
      have hmod : (m + 1) % 16 < 16 := Nat.mod_lt _ (by norm_num)
      simp only [parseHex, List.foldl_append, List.foldl_cons, List.foldl_nil]
      have : List.foldl (fun a c => 16 * a + hexVal c) 0 (hexChars ((m + 1) / 16))
          = (m + 1) / 16 := ih _ hlt
      rw [this, hexVal_upHexDigit _ hmod]
      exact Nat.div_add_mod (m + 1) 16

theorem parseHex_pad4_hexChars (n : Nat) : parseHex (pad4 (hexChars n)) = n := by
  rw [pad4, parseHex_append_zero, parseHex_hexChars]

theorem splitBlocks_flatten (text : List Char) :
    splitBlocks (text.map encodeChar).flatten
      = text.map (fun c => pad4 (hexChars c.toNat)) := by
  induction text with
  | nil => simp [splitBlocks_nil]
  | cons c rest ih =>
    have hblock : ∀ x ∈ pad4 (hexChars c.toNat), (x != 'u') = true := by
      intro x hx
      simpa using (mem_pad4_hexChars c.toNat x hx).1
    simp only [List.map_cons, List.flatten_cons, encodeChar]
    rw [List.cons_append, splitBlocks_cons]
    rw [List.takeWhile_append_of_pos hblock, List.dropWhile_append_of_pos hblock]
    cases hre : (rest.map encodeChar).flatten with
    | nil =>
      simp only [hre, List.takeWhile_nil, List.dropWhile_nil, List.append_nil]
      rw [← hre, ih]
    | cons y ys =>
      have hy : y = 'u' := by
        rcases rest with _ | ⟨d, ds⟩
        · simp at hre
        · simp only [List.map_cons, List.flatten_cons, encodeChar] at hre
          exact (List.cons_eq_cons.1 hre.symm).1
      have ht : (y :: ys).takeWhile (fun x => x != 'u') = [] := by
        simp [List.takeWhile, hy]
      have hd : (y :: ys).dropWhile (fun x => x != 'u') = y :: ys := by
        simp [List.dropWhile, hy]
      rw [ht, hd, List.append_nil, ← hre, ih]

theorem decodeId_compute_id (lab : List Char → List Char) (text : List Char)
    (hlab : ∀ c ∈ lab text, c ≠ '_') :
    decodeId (compute_id lab text) = text := by
  have hlab' : ∀ c ∈ lab text, (c != '_') = true := by
    intro c hc; simpa using hlab c hc
  unfold decodeId compute_id
  rw [List.dropWhile_append_of_pos hlab']
  have : List.dropWhile (fun c => c != '_') ('_' :: unicodeRepr text)
      = '_' :: unicodeRepr text := by
    simp [List.dropWhile]
  rw [this]
  simp only [List.drop_one, List.tail_cons]
  unfold unicodeRepr
  rw [splitBlocks_flatten]
  rw [List.map_map]
  have : ∀ c : Char,
      Char.ofNat (parseHex (pad4 (hexChars c.toNat))) = c := by
    intro c
    rw [parseHex_pad4_hexChars]
    exact Char.ofNat_toNat c
  calc (text.map fun c => Char.ofNat (parseHex (pad4 (hexChars c.toNat))))
      = text.map id := List.map_congr_left (fun c _ => this c)
    _ = text := List.map_id text

/-- C1: `compute_id` is a pure deterministic function whose output is the
label, an underscore separator, and the concatenation of per-codepoint
`u`-prefixed zero-padded hexadecimal blocks, and it is injective: two inputs
that differ in at least one codepoint yield different identifiers.  The
hypothesis is the `slug` library contract: the label part never contains an
underscore. -/
theorem c1_compute_id_injective (lab : List Char → List Char)
    (hlab : ∀ t, ∀ c ∈ lab t, c ≠ '_') :
    (∀ t, compute_id lab t = lab t ++ '_' :: unicodeRepr t) ∧
    ∀ t1 t2, t1 ≠ t2 → compute_id lab t1 ≠ compute_id lab t2 := by
  refine ⟨fun t => rfl, fun t1 t2 hne heq => hne ?_⟩
  have h1 := decodeId_compute_id lab t1 (hlab t1)
  have h2 := decodeId_compute_id lab t2 (hlab t2)
  rw [← h1, ← h2, heq]

/-- Degenerate label function (a `slug` that discards everything), used to
instantiate library-contract hypotheses in concrete evaluations. -/
def labEmpty : List Char → List Char := fun _ => []

theorem c1_witness :
    compute_id labEmpty ("a".toList) ≠ compute_id labEmpty ("b".toList) :=
  (c1_compute_id_injective labEmpty
    (by intro t c hc; simp [labEmpty] at hc)).2 _ _ (by decide)

/-- C9: on the empty string `compute_id` still returns a non-empty
identifier free of whitespace: the codepoint part is empty and the result is
the label followed by the underscore separator.  The hypothesis is the
`slug` library contract: under its defaults the label contains no
whitespace. -/
theorem c9_compute_id_empty (lab : List Char → List Char)
    (hlab : ∀ c ∈ lab [], c.isWhitespace = false) :
    compute_id lab [] = lab [] ++ ['_'] ∧
    compute_id lab [] ≠ [] ∧
    ∀ c ∈ compute_id lab [], c.isWhitespace = false := by
  refine ⟨by simp [compute_id, unicodeRepr], by simp [compute_id], ?_⟩
  intro c hc
  have hc' : c ∈ lab [] ∨ c = '_' := by simpa [compute_id, unicodeRepr] using hc
  rcases hc' with h | rfl
  · exact hlab c h
  · decide

theorem c9_witness :
    compute_id labEmpty [] = labEmpty [] ++ ['_'] ∧
    compute_id labEmpty [] ≠ [] ∧
    ∀ c ∈ compute_id labEmpty [], c.isWhitespace = false :=
  c9_compute_id_empty labEmpty (by intro c hc; simp [labEmpty] at hc)

/-- One conditional bracket-stripping step of `normalize_grapheme`
(`if text[0] == a and text[-1] == b: text = text[1:-1]`).  Python's
`text[0]` raises `IndexError` on the empty string; `none` models the
raised exception. -/
def stripPair (a b : Char) (t : List Char) : Option (List Char) :=
  match t with
  | [] => none
  | c :: rest =>
      if c = a ∧ (c :: rest).getLast? = some b then
        some (((c :: rest).drop 1).dropLast)
      else some (c :: rest)

/-- `normalize_grapheme(text)` from the source, lines 31–44: NFC
normalization, then conditional stripping of one enclosing `(...)` layer,
then of one enclosing `[...]` layer.  The stdlib call
`unicodedata.normalize("NFC", text)` enters as the parameter `nfc`. -/
def normalize_grapheme (nfc : List Char → List Char) (text : List Char) :
    Option (List Char) :=
  (stripPair '(' ')' (nfc text)).bind (stripPair '[' ']')

/-- Identity instantiation of the NFC parameter: Unicode NFC fixes every
ASCII string (each ASCII character is NFC-stable and no canonical
composition applies), so on the ASCII strings used in concrete evaluations
`normalize_grapheme nfcId` computes exactly what the Python function
computes. -/
def nfcId : List Char → List Char := fun t => t

theorem stripPair_eq_self (a b : Char) (t : List Char) (hne : t ≠ [])
    (h : ¬ (t.head? = some a ∧ t.getLast? = some b)) :
    stripPair a b t = some t := by
  match t with
  | [] => exact absurd rfl hne
  | c :: rest =>
    rw [stripPair, if_neg]
    rintro ⟨h1, h2⟩
    exact h ⟨by simp [h1], h2⟩

theorem stripPair_none_iff (a b : Char) (t : List Char) :
    stripPair a b t = none ↔ t = [] := by
  match t with
  | [] => simp [stripPair]
  | c :: rest =>
    rw [stripPair]
    constructor
    · intro h
      split at h <;> simp at h
    · intro h
      simp at h

/-- C2 counterexample: `normalize_grapheme` is not idempotent.  On the ASCII
(hence NFC-fixed) input `"((a))"` it returns `"(a)"`, and normalizing the
already-normalized `"(a)"` returns `"a"`, not `"(a)"`: the single
conditional strip exposes a second enclosing layer. -/
theorem c2_counterexample :
    normalize_grapheme nfcId ("((a))".toList) = some ("(a)".toList) ∧
    normalize_grapheme nfcId ("(a)".toList) ≠ some ("(a)".toList) := by
  constructor <;> decide

/-- C2 (amended): `normalize_grapheme` is idempotent on every input on which
it is defined whose normalized form is non-empty and is not itself
parenthesis-enclosed or square-bracket-enclosed.  The hypothesis `hfix`
is the Unicode contract of the `nfc` parameter on the already-normalized
output (NFC is idempotent and stable under removing the enclosing ASCII
bracket characters, which are starters). -/
theorem c2_normalize_idempotent (nfc : List Char → List Char)
    (s t : List Char)
    (hrun : normalize_grapheme nfc s = some t)
    (hfix : nfc t = t)
    (hne : t ≠ [])
    (hpar : ¬ (t.head? = some '(' ∧ t.getLast? = some ')'))
    (hbr : ¬ (t.head? = some '[' ∧ t.getLast? = some ']')) :
    normalize_grapheme nfc t = some t := by
  have h1 := stripPair_eq_self '(' ')' t hne hpar
  have h2 := stripPair_eq_self '[' ']' t hne hbr
  unfold normalize_grapheme
  rw [hfix, h1, Option.some_bind, h2]

theorem c2_witness :
    normalize_grapheme nfcId ("(a)".toList) = some ("a".toList) ∧
    normalize_grapheme nfcId ("a".toList) = some ("a".toList) :=
  ⟨by decide,
    c2_normalize_idempotent nfcId ("(a)".toList) ("a".toList)
      (by decide) (by decide) (by decide) (by decide) (by decide)⟩

/-- C10 counterexample: on the input `"[]"` `normalize_grapheme` does NOT
raise.  The parenthesis check at `text[0] == "("` fails, the bracket check
strips both brackets, and the function returns the empty string without any
further indexing. -/
theorem c10_counterexample :
    normalize_grapheme nfcId ("[]".toList) = some [] := by
  decide

/-- C10 (amended): `normalize_grapheme` raises (unguarded `text[0]`) exactly
when the NFC form of the input is empty, or when it becomes empty after the
parenthesis-stripping step — the error then surfaces at the
`text[0] == "["` check.  In particular the empty string and `"()"` raise,
but `"[]"` (which only becomes empty at the final, uninspected step) returns
the empty string. -/
theorem c10_partiality :
    (∀ (nfc : List Char → List Char) (s : List Char),
        normalize_grapheme nfc s = none ↔
          nfc s = [] ∨ stripPair '(' ')' (nfc s) = some []) ∧
    normalize_grapheme nfcId [] = none ∧
    normalize_grapheme nfcId ("()".toList) = none ∧
    normalize_grapheme nfcId ("[]".toList) = some [] := by
  refine ⟨?_, by decide, by decide, by decide⟩
  intro nfc s
  unfold normalize_grapheme
  rcases hsp : stripPair '(' ')' (nfc s) with _ | y
  · have h0 : nfc s = [] := (stripPair_none_iff _ _ _).1 hsp
    simp [h0]
  · simp only [Option.some_bind]
    constructor
    · intro h
      have hy : y = [] := (stripPair_none_iff '[' ']' y).1 h
      exact Or.inr (by rw [hy])
    · rintro (h | h)
      · rw [h] at hsp
        simp [stripPair] at hsp
      · rcases Option.some_inj.1 h with rfl
        rfl

/-- Decimal-string rendering of a natural number, Python's `str(counter)`. -/
def strNat (n : Nat) : List Char :=
  (Nat.repr n).toList

/-- One language's raw inventory entry `{cons, vows, tones}` from
`raw/phono_dbase.json`. -/
structure LangData where
  cons : List (List Char)
  vows : List (List Char)
  tones : List (List Char)
deriving DecidableEq

/-- One row appended to `values` in `cmd_makecldf` (lines 189–198): `ID`,
`Language_ID`, `Marginal`, `Parameter_ID`, `Value` (the `Source` field is
the constant empty list and is omitted). -/
structure ValueRow where
  vid : List Char
  language_id : List Char
  marginal : Bool
  parameter_id : List Char
  value : List Char
deriving DecidableEq

/-- The collaborators of the orchestrator loop: the NFC normalizer inside
`normalize_grapheme`, the `slug ∘ unidecode` label function inside
`compute_id`, the CLTS BIPA lookup (`clts.bipa[g]`, where `none` plays
`models.UnknownSound` and `some (g, d)` is the pair
`(str(sound), sound.name)`), and the language-metadata mapping `lang_map`
(where `none` is a `KeyError`). -/
structure Ctx where
  nfc : List Char → List Char
  lab : List Char → List Char
  bipa : List Char → Option (List Char × List Char)
  langMap : List Char → Option (List Char)

/-- Accumulators of the `cmd_makecldf` loop: `counter = 1` and empty
collections at lines 147–151.  `unknowns` is the UnknownLog (see
`logUnknown`). -/
structure BuildState where
  counter : Nat
  values : List ValueRow
  params : List (List Char × List Char × List Char × List Char)
  unknowns : List (List Char × List Char × List Char)
deriving DecidableEq

/-- Initial state of the loop. -/
def initState : BuildState := ⟨1, [], [], []⟩

/-- `bool(segment[0] == "(")` (line 171); `none` is the `IndexError` on an
empty segment string. -/
def marginalOf (segment : List Char) : Option Bool :=
  match segment with
  | [] => none
  | c :: _ => some (c = '(')

/-- Language-key derivation (line 187):
`language.split("#")[0].replace(",", "")`. -/
def langKey (language : List Char) : List Char :=
  (language.takeWhile (fun c => c != '#')).filter (fun c => c != ',')

/-- Parameter identifier of a normalized grapheme (lines 176–183): the
resolution-source prefix `"UNK_"` or `"BIPA_"` according to the BIPA lookup,
followed by `compute_id(normalized)`. -/
def parId (ctx : Ctx) (normalized : List Char) : List Char :=
  match ctx.bipa normalized with
  | none => "UNK_".toList ++ compute_id ctx.lab normalized
  | some _ => "BIPA_".toList ++ compute_id ctx.lab normalized

/-- Parameter tuple `(par_id, normalized, bipa_grapheme, desc)` appended to
`parameters` at line 184: empty grapheme and description on an unknown
sound. -/
def paramTuple (ctx : Ctx) (normalized : List Char) :
    List Char × List Char × List Char × List Char :=
  match ctx.bipa normalized with
  | none => (parId ctx normalized, normalized, [], [])
  | some gd => (parId ctx normalized, normalized, gd.1, gd.2)

/-- Modelled from the spec: the UnknownLog append of §4.3 ("the caller must
append the (original segment, language) pair to the UnknownLog keyed by the
normalized form for later inspection").  The repository's script version
holding the UnknownLog accumulator is not under `src/` (the version under
`src/` only has the `UnknownSound` branch); the entry is recorded here as
`(normalized key, original segment, language key)`. -/
def logUnknown (unknowns : List (List Char × List Char × List Char))
    (normalized segment language : List Char) :
    List (List Char × List Char × List Char) :=
  unknowns ++ [(normalized, segment, language)]

/-- One iteration of `for segment in cons + vows` (lines 170–199): marginal
flag from the raw segment text, normalization, BIPA resolution (with the
spec-modelled UnknownLog append on an unknown sound), parameter-tuple
accumulation, and emission of one value row carrying the stringified running
counter. -/
def step (ctx : Ctx) (language : List Char) (st : BuildState)
    (segment : List Char) : Option BuildState :=
  match marginalOf segment with
  | none => none
  | some marginal =>
    match normalize_grapheme ctx.nfc segment with
    | none => none
    | some normalized =>
      let p := paramTuple ctx normalized
      let unk :=
        match ctx.bipa normalized with
        | none => logUnknown st.unknowns normalized segment language
        | some _ => st.unknowns
      match ctx.langMap (langKey language) with
      | none => none
      | some lid =>
        some
          { counter := st.counter + 1
            values := st.values ++
              [⟨strNat st.counter, lid, marginal, p.1, segment⟩]
            params := st.params ++ [p]
            unknowns := unk }

/-- The inner segment loop `for segment in cons + vows` (line 170). -/
def runSegs (ctx : Ctx) (language : List Char) :
    List (List Char) → BuildState → Option BuildState
  | [], st => some st
  | seg :: rest, st =>
    match step ctx language st seg with
    | none => none
    | some st' => runSegs ctx language rest st'

/-- One iteration of the outer language loop (lines 152–199), restricted to
the value/parameter accumulation the claims are about (the per-language
inventory row with its filtered tone list is independent bookkeeping that
touches none of the accumulators modelled here). -/
def runLang (ctx : Ctx) (entry : List Char × LangData) (st : BuildState) :
    Option BuildState :=
  runSegs ctx entry.1 (entry.2.cons ++ entry.2.vows) st

/-- The outer loop over `raw_data.items()` (a Python dict iterates in
insertion order, modelled as an association list). -/
def runAll (ctx : Ctx) :
    List (List Char × LangData) → BuildState → Option BuildState
  | [], st => some st
  | e :: rest, st =>
    match runLang ctx e st with
    | none => none
    | some st' => runAll ctx rest st'

/-- `set(parameters)` followed by the `segments` list comprehension
(lines 201–205): deduplication by full tuple equality.  The claims only use
membership and multiplicity, which are independent of the arbitrary Python
set iteration order, so `List.dedup` models the pass through `set`. -/
def segmentsOf
    (params : List (List Char × List Char × List Char × List Char)) :
    List (List Char × List Char × List Char × List Char) :=
  params.dedup

/-- The whole `cmd_makecldf` accumulation core: run the loop over the raw
data from the initial state. -/
def makecldf (ctx : Ctx) (data : List (List Char × LangData)) :
    Option BuildState :=
  runAll ctx data initState

theorem step_some_eq (ctx : Ctx) (language : List Char) (st : BuildState)
    (segment : List Char) (marginal : Bool) (normalized lid : List Char)
    (hm : marginalOf segment = some marginal)
    (hn : normalize_grapheme ctx.nfc segment = some normalized)
    (hl : ctx.langMap (langKey language) = some lid) :
    step ctx language st segment = some
      { counter := st.counter + 1
        values := st.values ++
          [⟨strNat st.counter, lid, marginal,
            (paramTuple ctx normalized).1, segment⟩]
        params := st.params ++ [paramTuple ctx normalized]
        unknowns :=
          match ctx.bipa normalized with
          | none => logUnknown st.unknowns normalized segment language
          | some _ => st.unknowns } := by
  unfold step
  rw [hm, hn, hl]

theorem step_some_inv (ctx : Ctx) (language : List Char) (st : BuildState)
    (segment : List Char) (st' : BuildState)
    (h : step ctx language st segment = some st') :
    ∃ marginal normalized lid,
      marginalOf segment = some marginal ∧
      normalize_grapheme ctx.nfc segment = some normalized ∧
      ctx.langMap (langKey language) = some lid ∧
      st' = { counter := st.counter + 1
              values := st.values ++
                [⟨strNat st.counter, lid, marginal,
                  (paramTuple ctx normalized).1, segment⟩]
              params := st.params ++ [paramTuple ctx normalized]
              unknowns :=
                match ctx.bipa normalized with
                | none => logUnknown st.unknowns normalized segment language
                | some _ => st.unknowns } := by
  unfold step at h
  cases hm : marginalOf segment with
  | none => rw [hm] at h; cases h
  | some marginal =>
    rw [hm] at h
    cases hn : normalize_grapheme ctx.nfc segment with
    | none => rw [hn] at h; cases h
    | some normalized =>
      rw [hn] at h
      cases hl : ctx.langMap (langKey language) with
      | none => rw [hl] at h; cases h
      | some lid =>
        rw [hl] at h
        exact ⟨marginal, normalized, lid, rfl, rfl, rfl,
          (Option.some_inj.1 h).symm⟩

theorem paramTuple_fst (ctx : Ctx) (n : List Char) :
    (paramTuple ctx n).1 = parId ctx n := by
  unfold paramTuple parId
  cases ctx.bipa n <;> rfl

/-- Concrete BIPA table for evaluations: knows only the grapheme `"k"`. -/
def bipaK : List Char → Option (List Char × List Char) :=
  fun g =>
    if g = "k".toList then some ("k".toList, "voiceless velar stop".toList)
    else none

/-- Concrete language map for evaluations: every key is its own slug. -/
def lmapId : List Char → Option (List Char) := fun l => some l

/-- Concrete collaborator bundle for evaluations. -/
def ctxA : Ctx := ⟨nfcId, labEmpty, bipaK, lmapId⟩

/-- C3: when the normalized grapheme is not in the transcription table
(`clts.bipa` answers `UnknownSound`), the appended parameter tuple carries
empty symbol and description, the pipeline does not abort — the step
succeeds and one more value row is emitted — and the (original segment,
language) pair is appended to the UnknownLog keyed by the normalized form
(the UnknownLog accumulator is modelled from the spec, see `logUnknown`). -/
theorem c3_unknown_resolution (ctx : Ctx) (language : List Char)
    (st : BuildState) (segment normalized lid : List Char) (marginal : Bool)
    (hm : marginalOf segment = some marginal)
    (hn : normalize_grapheme ctx.nfc segment = some normalized)
    (hu : ctx.bipa normalized = none)
    (hl : ctx.langMap (langKey language) = some lid) :
    ∃ st', step ctx language st segment = some st' ∧
      st'.params.getLast? = some (parId ctx normalized, normalized, [], []) ∧
      st'.values.length = st.values.length + 1 ∧
      (normalized, segment, language) ∈ st'.unknowns := by
  refine ⟨_, step_some_eq ctx language st segment marginal normalized lid
    hm hn hl, ?_, ?_, ?_⟩
  · simp [paramTuple, hu, List.getLast?_concat, parId]
  · simp
  · simp [hu, logUnknown]

theorem c3_witness :
    ∃ st', step ctxA ("LangA".toList) initState ("t".toList) = some st' ∧
      st'.params.getLast?
        = some (parId ctxA ("t".toList), "t".toList, [], []) ∧
      st'.values.length = initState.values.length + 1 ∧
      ("t".toList, "t".toList, "LangA".toList) ∈ st'.unknowns :=
  c3_unknown_resolution ctxA ("LangA".toList) initState ("t".toList)
    ("t".toList) ("LangA".toList) false
    (by decide) (by decide) (by decide) (by decide)

/-- C5: the marginal flag is computed from the raw segment text and is true
exactly when the first character is the opening marker `'('`; for the raw
segment `"(a)"` the flag is true while the normalized grapheme is `"a"`
(so detection happens before normalization strips the brackets); and every
emitted value row carries exactly this flag of its raw segment. -/
theorem c5_marginal_flag :
    (∀ (c : Char) (rest : List Char),
        marginalOf (c :: rest) = some true ↔ c = '(') ∧
    marginalOf ("(a)".toList) = some true ∧
    normalize_grapheme nfcId ("(a)".toList) = some ("a".toList) ∧
    ∀ (ctx : Ctx) (language : List Char) (st : BuildState)
      (segment : List Char) (st' : BuildState),
        step ctx language st segment = some st' →
          st'.values.getLast?.map ValueRow.marginal = marginalOf segment := by
  refine ⟨?_, by decide, by decide, ?_⟩
  · intro c rest
    simp [marginalOf]
  · intro ctx language st segment st' h
    rcases step_some_inv ctx language st segment st' h with
      ⟨marginal, normalized, lid, hm, hn, hl, rfl⟩
    simp [List.getLast?_concat, hm]

/-- Result of one loop step on the raw segment `"(a)"` in the concrete
context `ctxA`. -/
def stC5 : BuildState :=
  ⟨2,
    [⟨"1".toList, "LangA".toList, true, "UNK__u0061".toList, "(a)".toList⟩],
    [("UNK__u0061".toList, "a".toList, [], [])],
    [("a".toList, "(a)".toList, "LangA".toList)]⟩

theorem c5_witness :
    ∃ st', step ctxA ("LangA".toList) initState ("(a)".toList) = some st' ∧
      st'.values.getLast?.map ValueRow.marginal
        = marginalOf ("(a)".toList) := by
  have hs : step ctxA ("LangA".toList) initState ("(a)".toList)
      = some stC5 := by decide
  exact ⟨stC5, hs, c5_marginal_flag.2.2.2 ctxA ("LangA".toList) initState
    ("(a)".toList) stC5 hs⟩

/-- C7: the parameter identifier of every emitted record is `parId`, a pure
function of the normalized grapheme (not of the raw segment) combined with
the resolution-source prefix — no counter, no state, no randomness — so any
two raw segments with the same normalized form receive the same
identifier. -/
theorem c7_parameter_id :
    (∀ (ctx : Ctx) (language : List Char) (st : BuildState)
        (segment : List Char) (st' : BuildState),
        step ctx language st segment = some st' →
          ∃ normalized,
            normalize_grapheme ctx.nfc segment = some normalized ∧
            st'.values.getLast?.map ValueRow.parameter_id
              = some (parId ctx normalized)) ∧
    ∀ (ctx : Ctx) (lg1 lg2 : List Char) (st1 st2 : BuildState)
      (s1 s2 : List Char) (st1' st2' : BuildState),
        step ctx lg1 st1 s1 = some st1' →
        step ctx lg2 st2 s2 = some st2' →
        normalize_grapheme ctx.nfc s1 = normalize_grapheme ctx.nfc s2 →
          st1'.values.getLast?.map ValueRow.parameter_id
            = st2'.values.getLast?.map ValueRow.parameter_id := by
  have main : ∀ (ctx : Ctx) (language : List Char) (st : BuildState)
      (segment : List Char) (st' : BuildState),
      step ctx language st segment = some st' →
        ∃ normalized,
          normalize_grapheme ctx.nfc segment = some normalized ∧
          st'.values.getLast?.map ValueRow.parameter_id
            = some (parId ctx normalized) := by
    intro ctx language st segment st' h
    rcases step_some_inv ctx language st segment st' h with
      ⟨marginal, normalized, lid, hm, hn, hl, rfl⟩
    exact ⟨normalized, hn, by simp [List.getLast?_concat, paramTuple_fst]⟩
  refine ⟨main, ?_⟩
  intro ctx lg1 lg2 st1 st2 s1 s2 st1' st2' h1 h2 hnorm
  rcases main ctx lg1 st1 s1 st1' h1 with ⟨n1, hn1, he1⟩
  rcases main ctx lg2 st2 s2 st2' h2 with ⟨n2, hn2, he2⟩
  rw [hn1, hn2] at hnorm
  rcases Option.some_inj.1 hnorm with rfl
  rw [he1, he2]

/-- Result of one loop step on the raw segment `"a"` in the concrete
context `ctxA`. -/
def stC7 : BuildState :=
  ⟨2,
    [⟨"1".toList, "LangA".toList, false, "UNK__u0061".toList, "a".toList⟩],
    [("UNK__u0061".toList, "a".toList, [], [])],
    [("a".toList, "a".toList, "LangA".toList)]⟩

theorem c7_witness :
    step ctxA ("LangA".toList) initState ("(a)".toList) = some stC5 ∧
    step ctxA ("LangA".toList) initState ("a".toList) = some stC7 ∧
    stC5.values.getLast?.map ValueRow.parameter_id
      = stC7.values.getLast?.map ValueRow.parameter_id := by
  have h1 : step ctxA ("LangA".toList) initState ("(a)".toList)
      = some stC5 := by decide
  have h2 : step ctxA ("LangA".toList) initState ("a".toList)
      = some stC7 := by decide
  exact ⟨h1, h2,
    c7_parameter_id.2 ctxA _ _ _ _ _ _ _ _ h1 h2 (by decide)⟩

/-- C8 counterexample: the emitted value row stores the RAW segment, not the
normalized grapheme, in its `"Value"` field, and the row has no
`Value_in_Source` field at all: for the raw segment `"(a)"`, whose
normalized grapheme is `"a"`, the emitted `Value` is `"(a)"`. -/
theorem c8_counterexample :
    step ctxA ("LangA".toList) initState ("(a)".toList) = some stC5 ∧
    normalize_grapheme nfcId ("(a)".toList) = some ("a".toList) ∧
    stC5.values.getLast?.map ValueRow.value = some ("(a)".toList) ∧
    stC5.values.getLast?.map ValueRow.value ≠ some ("a".toList) := by
  exact ⟨by decide, by decide, by decide, by decide⟩

/-- C8 (amended): every emitted value row stores the raw segment string in
its `Value` field; the normalized grapheme reaches only the parameter
table, and no `Value_in_Source` field exists. -/
theorem c8_value_is_raw (ctx : Ctx) (language : List Char) (st : BuildState)
    (segment : List Char) (st' : BuildState)
    (h : step ctx language st segment = some st') :
    st'.values.getLast?.map ValueRow.value = some segment := by
  rcases step_some_inv ctx language st segment st' h with
    ⟨marginal, normalized, lid, hm, hn, hl, rfl⟩
  simp [List.getLast?_concat]

theorem c8_witness :
    stC7.values.getLast?.map ValueRow.value = some ("a".toList) :=
  c8_value_is_raw ctxA ("LangA".toList) initState ("a".toList) stC7
    (by decide)

theorem runSegs_preserves (ctx : Ctx) (lang : List Char)
    (P : BuildState → Prop)
    (hstep : ∀ st seg st', step ctx lang st seg = some st' → P st → P st') :
    ∀ segs st st', runSegs ctx lang segs st = some st' → P st → P st' := by
  intro segs
  induction segs with
  | nil =>
    intro st st' h hp
    simp only [runSegs] at h
    exact (Option.some_inj.1 h) ▸ hp
  | cons seg rest ih =>
    intro st st' h hp
    simp only [runSegs] at h
    cases hs : step ctx lang st seg with
    | none => rw [hs] at h; cases h
    | some st1 => rw [hs] at h; exact ih st1 st' h (hstep st seg st1 hs hp)

theorem runAll_preserves (ctx : Ctx) (P : BuildState → Prop)
    (hstep : ∀ lang st seg st',
      step ctx lang st seg = some st' → P st → P st') :
    ∀ data st st', runAll ctx data st = some st' → P st → P st' := by
  intro data
  induction data with
  | nil =>
    intro st st' h hp
    simp only [runAll] at h
    exact (Option.some_inj.1 h) ▸ hp
  | cons e rest ih =>
    intro st st' h hp
    simp only [runAll] at h
    cases hs : runLang ctx e st with
    | none => rw [hs] at h; cases h
    | some st1 =>
      rw [hs] at h
      exact ih st1 st' h
        (runSegs_preserves ctx e.1 P (hstep e.1) _ st st1 hs hp)

theorem runSegs_values_length (ctx : Ctx) (lang : List Char) :
    ∀ segs (st st' : BuildState), runSegs ctx lang segs st = some st' →
      st'.values.length = st.values.length + segs.length := by
  intro segs
  induction segs with
  | nil =>
    intro st st' h
    simp only [runSegs] at h
    rw [← Option.some_inj.1 h]
    simp
  | cons seg rest ih =>
    intro st st' h
    simp only [runSegs] at h
    cases hs : step ctx lang st seg with
    | none => rw [hs] at h; cases h
    | some st1 =>
      rw [hs] at h
      rcases step_some_inv ctx lang st seg st1 hs with
        ⟨marginal, normalized, lid, hm, hn, hl, rfl⟩
      have := ih _ st' h
      simp only [List.length_append, List.length_cons, List.length_nil] at this
      rw [this]
      simp only [List.length_cons]
      omega

theorem runAll_values_length (ctx : Ctx) :
    ∀ data (st st' : BuildState), runAll ctx data st = some st' →
      st'.values.length = st.values.length +
        (data.map (fun e => e.2.cons.length + e.2.vows.length)).sum := by
  intro data
  induction data with
  | nil =>
    intro st st' h
    simp only [runAll] at h
    rw [← Option.some_inj.1 h]
    simp
  | cons e rest ih =>
    intro st st' h
    simp only [runAll] at h
    cases hs : runLang ctx e st with
    | none => rw [hs] at h; cases h
    | some st1 =>
      rw [hs] at h
      have h1 := runSegs_values_length ctx e.1 _ st st1 hs
      have h2 := ih st1 st' h
      rw [h2, h1]
      simp only [List.map_cons, List.sum_cons, List.length_append]
      omega

/-- Counter/identifier invariant: the counter is one past the number of
emitted values, and the k-th emitted value (0-based) carries the decimal
string of k+1. -/
def goodIds (st : BuildState) : Prop :=
  st.counter = st.values.length + 1 ∧
  ∀ k (hk : k < st.values.length),
    (st.values.get ⟨k, hk⟩).vid = strNat (k + 1)

theorem step_goodIds (ctx : Ctx) (lang : List Char) (st : BuildState)
    (seg : List Char) (st' : BuildState)
    (h : step ctx lang st seg = some st') (hg : goodIds st) : goodIds st' := by
  rcases step_some_inv ctx lang st seg st' h with
    ⟨marginal, normalized, lid, hm, hn, hl, rfl⟩
  constructor
  · simp [hg.1]
  · intro k hk
    simp only [List.length_append, List.length_cons, List.length_nil] at hk
    rcases Nat.lt_or_ge k st.values.length with hlt | hge
    · rw [List.get_eq_getElem, List.getElem_append_left hlt]
      have hv := hg.2 k hlt
      rw [List.get_eq_getElem] at hv
      exact hv
    · have hk0 : k = st.values.length := by omega
      subst hk0
      rw [List.get_eq_getElem,
        List.getElem_concat_length st.values _ _ rfl]
      simp [hg.1]

theorem initState_goodIds : goodIds initState := by
  constructor
  · rfl
  · intro k hk
    simp [initState] at hk

/-- C6: every emitted value row's own ID is the decimal string of a single
shared counter that starts at 1 and increments by one per emitted value
across all languages: after any successful run, the k-th value row
(0-based) has ID `str(k+1)`, and the counter equals the total number of
emitted values plus one (never reset, never reused). -/
theorem c6_value_ids (ctx : Ctx) (data : List (List Char × LangData))
    (st' : BuildState) (h : makecldf ctx data = some st') :
    st'.counter = st'.values.length + 1 ∧
    ∀ k (hk : k < st'.values.length),
      (st'.values.get ⟨k, hk⟩).vid = strNat (k + 1) :=
  runAll_preserves ctx goodIds
    (fun lang st seg st1 hs hg => step_goodIds ctx lang st seg st1 hs hg)
    data initState st' h initState_goodIds

/-- The raw data of the concrete run: two languages, both containing the
consonant `"k"`; the first also has the vowel `"a"`. -/
def dataC : List (List Char × LangData) :=
  [("LangA".toList, ⟨["k".toList], ["a".toList], []⟩),
   ("LangB".toList, ⟨["k".toList], [], []⟩)]

/-- Final state of the concrete run `makecldf ctxA dataC`. -/
def stRun : BuildState :=
  ⟨4,
    [⟨"1".toList, "LangA".toList, false, "BIPA__u006B".toList, "k".toList⟩,
     ⟨"2".toList, "LangA".toList, false, "UNK__u0061".toList, "a".toList⟩,
     ⟨"3".toList, "LangB".toList, false, "BIPA__u006B".toList, "k".toList⟩],
    [("BIPA__u006B".toList, "k".toList, "k".toList,
        "voiceless velar stop".toList),
     ("UNK__u0061".toList, "a".toList, [], []),
     ("BIPA__u006B".toList, "k".toList, "k".toList,
        "voiceless velar stop".toList)],
    [("a".toList, "a".toList, "LangA".toList)]⟩

theorem c6_witness :
    makecldf ctxA dataC = some stRun ∧
    stRun.counter = stRun.values.length + 1 ∧
    (stRun.values.get ⟨2, by decide⟩).vid = strNat 3 := by
  have h : makecldf ctxA dataC = some stRun := by decide
  exact ⟨h, (c6_value_ids ctxA dataC stRun h).1,
    (c6_value_ids ctxA dataC stRun h).2 2 (by decide)⟩

theorem compute_id_inj (lab : List Char → List Char)
    (hlab : ∀ t, ∀ c ∈ lab t, c ≠ '_') (a b : List Char)
    (h : compute_id lab a = compute_id lab b) : a = b := by
  have h1 := decodeId_compute_id lab a (hlab a)
  have h2 := decodeId_compute_id lab b (hlab b)
  rw [← h1, ← h2, h]

theorem parId_inj (ctx : Ctx) (hlab : ∀ t, ∀ c ∈ ctx.lab t, c ≠ '_')
    (n1 n2 : List Char) (h : parId ctx n1 = parId ctx n2) : n1 = n2 := by
  unfold parId at h
  cases hb1 : ctx.bipa n1 with
  | none =>
    cases hb2 : ctx.bipa n2 with
    | none =>
      rw [hb1, hb2] at h
      exact compute_id_inj ctx.lab hlab n1 n2 (List.append_cancel_left h)
    | some gd =>
      rw [hb1, hb2] at h
      have h' : 'U' :: ("NK_".toList ++ compute_id ctx.lab n1)
          = 'B' :: ("IPA_".toList ++ compute_id ctx.lab n2) := h
      exact absurd (List.cons_eq_cons.1 h').1 (by decide)
  | some gd =>
    cases hb2 : ctx.bipa n2 with
    | none =>
      rw [hb1, hb2] at h
      have h' : 'B' :: ("IPA_".toList ++ compute_id ctx.lab n1)
          = 'U' :: ("NK_".toList ++ compute_id ctx.lab n2) := h
      exact absurd (List.cons_eq_cons.1 h').1 (by decide)
    | some gd2 =>
      rw [hb1, hb2] at h
      exact compute_id_inj ctx.lab hlab n1 n2 (List.append_cancel_left h)

theorem paramTuple_id_inj (ctx : Ctx)
    (hlab : ∀ t, ∀ c ∈ ctx.lab t, c ≠ '_') (n1 n2 : List Char)
    (hid : (paramTuple ctx n1).1 = (paramTuple ctx n2).1) :
    paramTuple ctx n1 = paramTuple ctx n2 := by
  rw [paramTuple_fst, paramTuple_fst] at hid
  rw [parId_inj ctx hlab n1 n2 hid]

/-- Every parameter tuple accumulated by a run is the canonical tuple of
some normalized grapheme. -/
def canonicalParams (ctx : Ctx) (st : BuildState) : Prop :=
  ∀ p ∈ st.params, ∃ n, p = paramTuple ctx n

theorem step_canonicalParams (ctx : Ctx) (lang : List Char)
    (st : BuildState) (seg : List Char) (st' : BuildState)
    (h : step ctx lang st seg = some st') (hc : canonicalParams ctx st) :
    canonicalParams ctx st' := by
  rcases step_some_inv ctx lang st seg st' h with
    ⟨marginal, normalized, lid, hm, hn, hl, rfl⟩
  intro p hp
  simp only [List.mem_append, List.mem_singleton] at hp
  rcases hp with hp | rfl
  · exact hc p hp
  · exact ⟨normalized, rfl⟩

theorem initState_canonicalParams (ctx : Ctx) :
    canonicalParams ctx initState := by
  intro p hp
  simp [initState] at hp

/-- C4: after any successful run the final parameter records are the
accumulated tuples deduplicated by full tuple equality, the deduplicated
set is also unique by parameter identifier (so two languages sharing a
normalized grapheme contribute exactly one record), while the value rows
still count every listed occurrence separately — their number is the total
segment count over all languages.  The hypothesis is the `slug` library
contract (no underscore in the label part of `compute_id`). -/
theorem c4_dedup_unique (ctx : Ctx)
    (hlab : ∀ t, ∀ c ∈ ctx.lab t, c ≠ '_')
    (data : List (List Char × LangData)) (st' : BuildState)
    (h : makecldf ctx data = some st') :
    (segmentsOf st'.params).Nodup ∧
    ((segmentsOf st'.params).map (fun p => p.1)).Nodup ∧
    (∀ p, p ∈ segmentsOf st'.params ↔ p ∈ st'.params) ∧
    st'.values.length
      = (data.map (fun e => e.2.cons.length + e.2.vows.length)).sum := by
  have hcanon : canonicalParams ctx st' :=
    runAll_preserves ctx (canonicalParams ctx)
      (fun lang st seg st1 hs hc => step_canonicalParams ctx lang st seg st1 hs hc)
      data initState st' h (initState_canonicalParams ctx)
  refine ⟨List.nodup_dedup _, ?_, fun p => List.mem_dedup, ?_⟩
  · refine List.Nodup.map_on ?_ (List.nodup_dedup _)
    intro p hp q hq hpq
    rcases hcanon p (List.mem_dedup.1 hp) with ⟨n1, rfl⟩
    rcases hcanon q (List.mem_dedup.1 hq) with ⟨n2, rfl⟩
    exact paramTuple_id_inj ctx hlab n1 n2 hpq
  · have := runAll_values_length ctx data initState st' h
    simpa [initState] using this

theorem c4_witness :
    makecldf ctxA dataC = some stRun ∧
    (segmentsOf stRun.params).Nodup ∧
    ((segmentsOf stRun.params).map (fun p => p.1)).Nodup ∧
    ((segmentsOf stRun.params).filter
        (fun p => p.2.1 = "k".toList)).length = 1 ∧
    stRun.values.length = 3 := by
  have h : makecldf ctxA dataC = some stRun := by decide
  have main := c4_dedup_unique ctxA
    (by intro t c hc; simp [ctxA, labEmpty] at hc) dataC stRun h
  exact ⟨h, main.1, main.2.1, by decide, by decide⟩
